import Mathlib

/-
Verification of the HierarchyViz core: flat-record-to-tree reconstruction
(buildEmployeeMap), field search (searchEmployees), navigation (goUp) and
the fit-to-viewport camera transform (fitToScreen), shallowly embedded from
src/utils/dataProcessing.ts, src/App.tsx and the OrgChart component.

Modelling conventions:
- JS strings are Lean `String`; JS string truthiness (`if (s)`, `s || t`)
  is emptiness testing, written `s = ""` here.
- A CSV row (a JS object with string values) is an association list; JS
  property access `row.K` is `getField r k` (first binding wins, as objects
  have unique keys).
- A JS `Map` is an insertion-ordered association list with unique keys.
  `Map.prototype.set` on an existing key updates the value in place and
  keeps the original insertion position (per the JS specification); on a
  new key it appends.  `mapSet` reproduces exactly that.
- The second (link) pass of buildEmployeeMap mutates only the per-node
  `children` arrays; since pushes never affect the iteration or the
  conditions, the final `children` array of the node stored at key `k`
  equals the filter, in map-iteration order, of the nodes whose truthy
  managerId looks up to key `k`.  `children` below is that filter.
- `console.warn` occurrences of the link pass are collected by
  `unresolvedWarnings`; the root-candidate predicate of App.tsx
  (`!emp.managerId || !map.has(emp.managerId)`) is `rootCandidates`.
- The floating-point geometry of fitToScreen is embedded over `ℚ`; the
  claims about it concern division by zero and exact clamping/centering
  identities, which are faithfully expressed rationally.
- JS `toLowerCase`/`trim` are modelled for the ASCII inputs the tests and
  claims use, via `Char.toLower` and `Char.isWhitespace` over `String.data`.
-/

namespace HierarchyViz

/-- A normalized CSV row: upper-cased string keys to string values, as
delivered by parseCsv.  JS objects have unique keys, so first-binding
lookup is exact. -/
abbrev Row := List (String × String)

/-- JS property access `row[k]`: `some` the stored value, `none` when the
key is absent (JS `undefined`). -/
def getField (r : Row) (k : String) : Option String :=
  (r.find? (fun p => decide (p.1 = k))).map Prod.snd

/-- The JS field-priority chain `row.K1 || row.K2 || ...` as used at each
of the three extraction sites of buildEmployeeMap.  In JS the chain yields
its first truthy (defined and non-empty) operand, or else the last
operand, which at every use site is then treated as absent (skipped,
nulled, or defaulted); so the chain is exactly "first non-empty present
value, else none". -/
def jsLookup (r : Row) : List String → Option String
  | [] => none
  | k :: ks =>
    match getField r k with
    | some v => if v = "" then jsLookup r ks else some v
    | none => jsLookup r ks

/-- The Employee node of src/types.ts, without the `children` array (see
the header note: children are derived by `children` below) and without the
transient layout attributes. -/
structure Employee where
  id : String
  managerId : Option String
  name : String
deriving DecidableEq

/-- The JS `Map<string, Employee>`: an insertion-ordered association list
with unique keys. -/
abbrev EmployeeMap := List (String × Employee)

def keys (m : EmployeeMap) : List String := m.map Prod.fst

def values (m : EmployeeMap) : List Employee := m.map Prod.snd

/-- The JS `Map.prototype.get`. -/
def mapGet (m : EmployeeMap) (k : String) : Option Employee :=
  (m.find? (fun p => decide (p.1 = k))).map Prod.snd

/-- The JS `Map.prototype.has`. -/
def mapHasKey (m : EmployeeMap) (k : String) : Bool :=
  m.any (fun p => decide (p.1 = k))

/-- The JS `Map.prototype.set`: update in place when the key exists (the original
insertion position is preserved, per the JS Map specification), append
otherwise. -/
def mapSet (m : EmployeeMap) (k : String) (v : Employee) : EmployeeMap :=
  if mapHasKey m k then m.map (fun p => if p.1 = k then (k, v) else p)
  else m ++ [(k, v)]

/-- Identifier field aliases, in the priority order of dataProcessing.ts
line 41. -/
def idKeys : List String := ["EMPLOYEENUMBER", "EMPLOYEE ID"]

/-- Manager-reference field aliases (line 42). -/
def managerKeys : List String := ["SUPERVISORPARTYID", "MANAGER ID", "SUPERVISOR ID"]

/-- Display-name field aliases (line 43). -/
def nameKeys : List String := ["FIRSTNAME", "NAME", "FULL NAME"]

/-- One iteration of the first (node) pass of buildEmployeeMap: extract
id/managerId/name by field priority; skip the row when the id chain is
falsy; otherwise set the node under its id (`managerId ? managerId : null`
and `name || 'Unknown'` are the falsiness defaults). -/
def buildRow (m : EmployeeMap) (row : Row) : EmployeeMap :=
  match jsLookup row idKeys with
  | none => m
  | some i =>
      mapSet m i
        { id := i
          managerId := jsLookup row managerKeys
          name := (jsLookup row nameKeys).getD "Unknown" }

/-- The node pass of buildEmployeeMap over all rows, in input order. -/
def buildEmployeeMap (rows : List Row) : EmployeeMap :=
  rows.foldl buildRow []

/-- The contents, after the link pass, of the `children` array of the node
stored at key `k`: the map values, in iteration (insertion) order, whose
managerId is truthy and whose `employeeMap.get(managerId)` is the entry at
key `k` — that is, managerId equals `k` and `k` is present.  See the
header note for why the imperative push loop produces exactly this
filter. -/
def children (m : EmployeeMap) (k : String) : List Employee :=
  (values m).filter (fun e =>
    match e.managerId with
    | none => false
    | some g => decide (g ≠ "") && decide (g = k) && (mapGet m k).isSome)

/-- The nodes for which the link pass hits the `console.warn` branch: a
truthy managerId whose lookup fails. -/
def unresolvedWarnings (m : EmployeeMap) : List Employee :=
  (values m).filter (fun e =>
    match e.managerId with
    | none => false
    | some g => decide (g ≠ "") && !(mapGet m g).isSome)

/-- The root candidates, per the default-root scan of App.tsx lines 30-34:
nodes whose managerId is falsy or does not resolve
(`!emp.managerId || !map.has(emp.managerId)`), in map iteration order. -/
def rootCandidates (m : EmployeeMap) : List Employee :=
  (values m).filter (fun e =>
    match e.managerId with
    | none => true
    | some g => decide (g = "") || !(mapGet m g).isSome)

/-- JS `toLowerCase` over the characters of a string (ASCII model). -/
def lowerChars (l : List Char) : List Char := l.map Char.toLower

/-- JS `trim`: drop whitespace from both ends (ASCII model). -/
def trimChars (l : List Char) : List Char :=
  ((l.dropWhile Char.isWhitespace).reverse.dropWhile Char.isWhitespace).reverse

/-- JS `hay.includes(needle)`: contiguous substring containment. -/
def containsSub (needle : List Char) : List Char → Bool
  | [] => needle.isPrefixOf []
  | c :: rest => needle.isPrefixOf (c :: rest) || containsSub needle rest

/-- The three search fields of src/types.ts. -/
inductive SearchField where
  | id
  | name
  | managerId
deriving DecidableEq

/-- searchEmployees of dataProcessing.ts lines 75-102: lower-case then
trim the query; empty result on a falsy trimmed query; otherwise a linear
scan of the map in iteration order, keeping the nodes whose chosen field
(lower-cased) contains the trimmed lower-cased query; the managerId field
is additionally guarded by managerId truthiness. -/
def searchEmployees (m : EmployeeMap) (query : String) (field : SearchField) :
    List Employee :=
  let queryLower := trimChars (lowerChars query.data)
  if queryLower = [] then []
  else
    (values m).filter (fun e =>
      match field with
      | .id => containsSub queryLower (lowerChars e.id.data)
      | .name => containsSub queryLower (lowerChars e.name.data)
      | .managerId =>
          match e.managerId with
          | none => false
          | some g => decide (g ≠ "") && containsSub queryLower (lowerChars g.data))

/-- Search as claim C4 words it (for comparison with the implementation):
an empty or whitespace-only query yields the empty sequence; otherwise
exactly the nodes whose chosen field contains the query itself — untrimmed
— as a case-insensitive substring, in index order, skipping null-managerId
nodes on the managerId field. -/
def searchSpecC4 (m : EmployeeMap) (query : String) (field : SearchField) :
    List Employee :=
  if trimChars query.data = [] then []
  else
    (values m).filter (fun e =>
      match field with
      | .id => containsSub (lowerChars query.data) (lowerChars e.id.data)
      | .name => containsSub (lowerChars query.data) (lowerChars e.name.data)
      | .managerId =>
          match e.managerId with
          | none => false
          | some g => containsSub (lowerChars query.data) (lowerChars g.data))

/-- The build failure taxonomy relevant to handleUpload: the only typed
failure the code raises is the empty-input error of App.tsx line 23. -/
inductive UploadError where
  | emptyInput
deriving DecidableEq

/-- handleUpload of App.tsx lines 17-43, restricted to its data effect:
parseCsv output of length zero throws ("CSV file is empty or invalid.");
otherwise the employee map is built and installed. -/
def handleUpload (rows : List Row) : Except UploadError EmployeeMap :=
  if rows.length = 0 then Except.error UploadError.emptyInput
  else Except.ok (buildEmployeeMap rows)

/-- The App state relevant to goUp: the installed map and the current view
root. -/
structure AppState where
  employeeMap : Option EmployeeMap
  viewRoot : Option Employee
deriving DecidableEq

/-- goUp of App.tsx lines 63-69: guard on a present root with truthy
managerId and a present map; replace the root by the index entry found
under the managerId when the lookup succeeds, otherwise leave the state
unchanged.  The Bool records whether setViewRoot fired (success versus
no-op). -/
def goUp (s : AppState) : AppState × Bool :=
  match s.viewRoot with
  | none => (s, false)
  | some root =>
    match root.managerId with
    | none => (s, false)
    | some g =>
      if g = "" then (s, false)
      else
        match s.employeeMap with
        | none => (s, false)
        | some m =>
          match mapGet m g with
          | some mgr => ({ s with viewRoot := some mgr }, true)
          | none => (s, false)

/-- CARD_WIDTH of the OrgChart component. -/
def CARD_WIDTH : ℚ := 260

/-- CARD_HEIGHT of the OrgChart component. -/
def CARD_HEIGHT : ℚ := 100

/-- The fixed padding of fitToScreen. -/
def PADDING : ℚ := 100

/-- The camera transform produced by fitToScreen: d3.zoomIdentity
.translate(tx, ty).scale(s). -/
structure FitTransform where
  tx : ℚ
  ty : ℚ
  scale : ℚ
deriving DecidableEq

/-- Minimum x over a non-empty position list (the JS loop inits at
Infinity and scans every node; over `p :: ps` that is a fold from `p`). -/
def rawMinX (p : ℚ × ℚ) (ps : List (ℚ × ℚ)) : ℚ :=
  ps.foldl (fun a q => min a q.1) p.1

/-- Maximum x over a non-empty position list. -/
def rawMaxX (p : ℚ × ℚ) (ps : List (ℚ × ℚ)) : ℚ :=
  ps.foldl (fun a q => max a q.1) p.1

/-- Minimum y over a non-empty position list. -/
def rawMinY (p : ℚ × ℚ) (ps : List (ℚ × ℚ)) : ℚ :=
  ps.foldl (fun a q => min a q.2) p.2

/-- Maximum y over a non-empty position list. -/
def rawMaxY (p : ℚ × ℚ) (ps : List (ℚ × ℚ)) : ℚ :=
  ps.foldl (fun a q => max a q.2) p.2

/-- fitToScreen line `minX -= CARD_WIDTH / 2`. -/
def bboxMinX (p : ℚ × ℚ) (ps : List (ℚ × ℚ)) : ℚ := rawMinX p ps - CARD_WIDTH / 2

/-- fitToScreen line `maxX += CARD_WIDTH / 2`. -/
def bboxMaxX (p : ℚ × ℚ) (ps : List (ℚ × ℚ)) : ℚ := rawMaxX p ps + CARD_WIDTH / 2

/-- The y minimum is left at the anchor (root y is 0 at the top). -/
def bboxMinY (p : ℚ × ℚ) (ps : List (ℚ × ℚ)) : ℚ := rawMinY p ps

/-- fitToScreen line `maxY += CARD_HEIGHT`. -/
def bboxMaxY (p : ℚ × ℚ) (ps : List (ℚ × ℚ)) : ℚ := rawMaxY p ps + CARD_HEIGHT

/-- Bounding-box width after card expansion. -/
def bboxWidth (p : ℚ × ℚ) (ps : List (ℚ × ℚ)) : ℚ := bboxMaxX p ps - bboxMinX p ps

/-- Bounding-box height after card expansion. -/
def bboxHeight (p : ℚ × ℚ) (ps : List (ℚ × ℚ)) : ℚ := bboxMaxY p ps - bboxMinY p ps

/-- Bounding-box x center. -/
def bboxCenterX (p : ℚ × ℚ) (ps : List (ℚ × ℚ)) : ℚ :=
  (bboxMinX p ps + bboxMaxX p ps) / 2

/-- Bounding-box y center. -/
def bboxCenterY (p : ℚ × ℚ) (ps : List (ℚ × ℚ)) : ℚ :=
  (bboxMinY p ps + bboxMaxY p ps) / 2

/-- The clamped scale of fitToScreen:
`min(max(min((w - padding) / width, (h - padding) / height), 0.2), 1)`. -/
def fitScale (p : ℚ × ℚ) (ps : List (ℚ × ℚ)) (svgWidth svgHeight : ℚ) : ℚ :=
  let scale := min ((svgWidth - PADDING) / bboxWidth p ps)
                   ((svgHeight - PADDING) / bboxHeight p ps)
  min (max scale (1 / 5)) 1

/-- fitToScreen line `tx = svgWidth / 2 - centerX * clampedScale`. -/
def fitTx (p : ℚ × ℚ) (ps : List (ℚ × ℚ)) (svgWidth svgHeight : ℚ) : ℚ :=
  svgWidth / 2 - bboxCenterX p ps * fitScale p ps svgWidth svgHeight

/-- fitToScreen line
`ty = svgHeight / 2 - centerY * clampedScale - (height * clampedScale / 2) + 50`
(the comment in the source reads "Bias slightly to top"). -/
def fitTy (p : ℚ × ℚ) (ps : List (ℚ × ℚ)) (svgWidth svgHeight : ℚ) : ℚ :=
  svgHeight / 2 - bboxCenterY p ps * fitScale p ps svgWidth svgHeight -
    bboxHeight p ps * fitScale p ps svgWidth svgHeight / 2 + 50

/-- fitToScreen of the OrgChart component, lines 71-120, as a function of
the laid-out node positions and the viewport size.  The component always
calls it with at least the root present; the empty case (which in JS would
produce non-finite bounds) is `none`. -/
def fitToScreen : List (ℚ × ℚ) → ℚ → ℚ → Option FitTransform
  | [], _, _ => none
  | p :: ps, svgWidth, svgHeight =>
    some
      { tx := fitTx p ps svgWidth svgHeight
        ty := fitTy p ps svgWidth svgHeight
        scale := fitScale p ps svgWidth svgHeight }

/-- A uniform shift of all anchor positions (used to state that the fit
transform's vertical bias does not depend on the box's position). -/
def shiftPos (dx dy : ℚ) (q : ℚ × ℚ) : ℚ × ℚ := (q.1 + dx, q.2 + dy)

@[simp] theorem shiftPos_fst (dx dy : ℚ) (q : ℚ × ℚ) :
    (shiftPos dx dy q).1 = q.1 + dx := rfl

@[simp] theorem shiftPos_snd (dx dy : ℚ) (q : ℚ × ℚ) :
    (shiftPos dx dy q).2 = q.2 + dy := rfl

/-! ### Lemmas: field extraction -/

theorem jsLookup_ne_empty {r : Row} {ks : List String} {v : String}
    (h : jsLookup r ks = some v) : v ≠ "" := by
  induction ks with
  | nil => simp [jsLookup] at h
  | cons k ks ih =>
    cases hg : getField r k with
    | none =>
      simp only [jsLookup, hg] at h
      exact ih h
    | some w =>
      simp only [jsLookup, hg] at h
      by_cases hw : w = ""
      · rw [if_pos hw] at h; exact ih h
      · rw [if_neg hw] at h
        injection h with h2
        exact h2 ▸ hw

theorem jsLookup_none {r : Row} {ks : List String}
    (h : ∀ k ∈ ks, getField r k = none ∨ getField r k = some "") :
    jsLookup r ks = none := by
  induction ks with
  | nil => rfl
  | cons k ks ih =>
    rcases h k (List.mem_cons_self k ks) with hk | hk
    · simp only [jsLookup, hk]
      exact ih fun k2 h2 => h k2 (List.mem_cons_of_mem _ h2)
    · simp only [jsLookup, hk, if_pos]
      exact ih fun k2 h2 => h k2 (List.mem_cons_of_mem _ h2)

/-! ### Lemmas: the Map embedding -/

theorem mapGet_eq_none_iff {m : EmployeeMap} {k : String} :
    mapGet m k = none ↔ ∀ p ∈ m, p.1 ≠ k := by
  simp [mapGet, List.find?_eq_none]

theorem mapGet_mem {m : EmployeeMap} {k : String} {v : Employee}
    (h : mapGet m k = some v) : (k, v) ∈ m := by
  simp only [mapGet, Option.map_eq_some'] at h
  obtain ⟨p, hfind, hsnd⟩ := h
  have h1 : p.1 = k := by simpa using List.find?_some hfind
  have h2 := List.mem_of_find?_eq_some hfind
  have hpk : p = (k, v) := Prod.ext h1 hsnd
  rwa [hpk] at h2

theorem mem_mapGet {m : EmployeeMap} {k : String} {v : Employee}
    (hnd : (keys m).Nodup) (h : (k, v) ∈ m) : mapGet m k = some v := by
  induction m with
  | nil => cases h
  | cons p t ih =>
    rw [keys, List.map_cons, List.nodup_cons] at hnd
    rcases List.mem_cons.mp h with h1 | ht
    · cases h1.symm
      simp [mapGet]
    · by_cases hp : p.1 = k
      · exfalso
        apply hnd.1
        rw [hp]
        exact List.mem_map_of_mem Prod.fst ht
      · rw [mapGet, List.find?_cons_of_neg _ (by simpa using hp)]
        exact ih hnd.2 ht

theorem mapHasKey_iff {m : EmployeeMap} {k : String} :
    mapHasKey m k = true ↔ k ∈ keys m := by
  simp only [mapHasKey, keys, List.any_eq_true, List.mem_map,
    decide_eq_true_eq]

theorem fst_mapSet_entry (k : String) (v : Employee) (p : String × Employee) :
    (if p.1 = k then (k, v) else p).1 = p.1 := by
  by_cases h : p.1 = k <;> simp [h]

theorem keys_mapSet (m : EmployeeMap) (k : String) (v : Employee) :
    keys (mapSet m k v) =
      if mapHasKey m k then keys m else keys m ++ [k] := by
  cases h : mapHasKey m k
  · simp only [mapSet, h, Bool.false_eq_true, if_false, keys, List.map_append]
    rfl
  · simp only [mapSet, h, if_true, keys, List.map_map]
    exact List.map_congr_left fun p _ => fst_mapSet_entry k v p

theorem find?_update_of_hasKey (k : String) (v : Employee) (m : EmployeeMap)
    (h : mapHasKey m k = true) :
    (m.map (fun p => if p.1 = k then (k, v) else p)).find?
        (fun p => decide (p.1 = k)) = some (k, v) := by
  induction m with
  | nil => simp [mapHasKey] at h
  | cons p t ih =>
    by_cases hp : p.1 = k
    · simp [hp]
    · have ht : mapHasKey t k = true := by
        simp only [mapHasKey, List.any_cons, Bool.or_eq_true,
          decide_eq_true_eq] at h
        rcases h with h | h
        · exact absurd h hp
        · simpa [mapHasKey] using h
      simp only [List.map_cons, if_neg hp]
      rw [List.find?_cons_of_neg _ (by simpa using hp)]
      exact ih ht

theorem find?_update_ne (k k2 : String) (v : Employee) (hne : k2 ≠ k)
    (m : EmployeeMap) :
    (m.map (fun p => if p.1 = k then (k, v) else p)).find?
        (fun p => decide (p.1 = k2)) = m.find? (fun p => decide (p.1 = k2)) := by
  induction m with
  | nil => rfl
  | cons p t ih =>
    by_cases hp : p.1 = k
    · simp only [List.map_cons, if_pos hp]
      rw [List.find?_cons_of_neg _ (by simp [Ne.symm hne]),
        List.find?_cons_of_neg _ (by simp [hp, Ne.symm hne])]
      exact ih
    · simp only [List.map_cons, if_neg hp]
      by_cases hq : p.1 = k2
      · rw [List.find?_cons_of_pos _ (by simpa using hq),
          List.find?_cons_of_pos _ (by simpa using hq)]
      · rw [List.find?_cons_of_neg _ (by simpa using hq),
          List.find?_cons_of_neg _ (by simpa using hq)]
        exact ih

theorem mapGet_mapSet_self (m : EmployeeMap) (k : String) (v : Employee) :
    mapGet (mapSet m k v) k = some v := by
  cases h : mapHasKey m k
  · have hnone : m.find? (fun p => decide (p.1 = k)) = none := by
      refine List.find?_eq_none.mpr fun p hp => ?_
      simp only [mapHasKey] at h
      have := List.any_eq_false.mp h p hp
      simpa using this
    simp [mapSet, h, mapGet, List.find?_append, hnone]
  · simp [mapSet, h, mapGet, find?_update_of_hasKey k v m h]

theorem mapGet_mapSet_ne (m : EmployeeMap) (k k2 : String) (v : Employee)
    (hne : k2 ≠ k) : mapGet (mapSet m k v) k2 = mapGet m k2 := by
  cases h : mapHasKey m k
  · have hlast : ([(k, v)] : EmployeeMap).find? (fun p => decide (p.1 = k2))
        = none := by
      simp [Ne.symm hne]
    simp [mapSet, h, mapGet, List.find?_append, hlast]
  · simp [mapSet, h, mapGet, find?_update_ne k k2 v hne m]

/-! ### The builder invariant -/

/-- Well-formedness of any map produced by the node pass: keys are unique,
each value's id is its key, and ids and stored manager references are
non-empty (the falsiness guards of the node pass put only truthy strings
there). -/
def WF (m : EmployeeMap) : Prop :=
  (keys m).Nodup ∧
  ∀ p ∈ m, p.2.id = p.1 ∧ p.1 ≠ "" ∧ ∀ g, p.2.managerId = some g → g ≠ ""

theorem WF_mapSet {m : EmployeeMap} {k : String} {v : Employee}
    (hwf : WF m) (hk : k ≠ "") (hid : v.id = k)
    (hmg : ∀ g, v.managerId = some g → g ≠ "") : WF (mapSet m k v) := by
  obtain ⟨hnd, hmem⟩ := hwf
  constructor
  · rw [keys_mapSet]
    cases h : mapHasKey m k
    · simp only [Bool.false_eq_true, if_false]
      rw [List.nodup_append]
      refine ⟨hnd, List.nodup_singleton k, fun a ha hb => ?_⟩
      have hak : a = k := by simpa using hb
      subst hak
      exact absurd (mapHasKey_iff.mpr ha) (by simp [h])
    · simpa using hnd
  · intro p hp
    by_cases h : mapHasKey m k = true
    · simp only [mapSet, h, if_true] at hp
      obtain ⟨q, hq, hrepl⟩ := List.mem_map.mp hp
      by_cases hqk : q.1 = k
      · rw [if_pos hqk] at hrepl
        cases hrepl.symm
        exact ⟨hid, hk, hmg⟩
      · rw [if_neg hqk] at hrepl
        exact hrepl ▸ hmem q hq
    · simp only [mapSet, h, if_false] at hp
      rcases List.mem_append.mp hp with hq | hq
      · exact hmem p hq
      · have : p = (k, v) := by simpa using hq
        cases this
        exact ⟨hid, hk, hmg⟩

theorem WF_buildRow {m : EmployeeMap} (hwf : WF m) (row : Row) :
    WF (buildRow m row) := by
  rw [buildRow]
  cases hid : jsLookup row idKeys with
  | none => exact hwf
  | some i =>
    exact WF_mapSet hwf (jsLookup_ne_empty hid) rfl
      fun g hg => jsLookup_ne_empty hg

theorem WF_nil : WF ([] : EmployeeMap) :=
  ⟨List.nodup_nil, fun p hp => absurd hp (List.not_mem_nil p)⟩

theorem WF_foldl {m : EmployeeMap} (hwf : WF m) (rows : List Row) :
    WF (rows.foldl buildRow m) := by
  induction rows generalizing m with
  | nil => exact hwf
  | cons r rs ih => exact ih (WF_buildRow hwf r)

theorem WF_build (rows : List Row) : WF (buildEmployeeMap rows) :=
  WF_foldl WF_nil rows

theorem values_nodup {m : EmployeeMap} (hwf : WF m) : (values m).Nodup := by
  have hkeys : keys m = (values m).map Employee.id := by
    rw [keys, values, List.map_map]
    exact List.map_congr_left fun p hp => ((hwf.2 p hp).1).symm
  exact List.Nodup.of_map Employee.id (hkeys ▸ hwf.1)

theorem mem_values_iff {m : EmployeeMap} {e : Employee} :
    e ∈ values m ↔ ∃ k, (k, e) ∈ m := by
  simp only [values, List.mem_map]
  constructor
  · rintro ⟨⟨k, v⟩, hm, rfl⟩; exact ⟨k, hm⟩
  · rintro ⟨k, hm⟩; exact ⟨(k, e), hm, rfl⟩

theorem mapGet_of_mem_values {m : EmployeeMap} {e : Employee}
    (hwf : WF m) (he : e ∈ values m) : mapGet m e.id = some e := by
  obtain ⟨k, hk⟩ := mem_values_iff.mp he
  have hik : e.id = k := (hwf.2 _ hk).1
  rw [hik]
  exact mem_mapGet hwf.1 hk

theorem managerId_ne_empty_of_mem {m : EmployeeMap} {e : Employee} {g : String}
    (hwf : WF m) (he : e ∈ values m) (hg : e.managerId = some g) : g ≠ "" := by
  obtain ⟨k, hk⟩ := mem_values_iff.mp he
  exact (hwf.2 _ hk).2.2 g hg

theorem mapGet_empty_key {m : EmployeeMap} (hwf : WF m) :
    mapGet m "" = none :=
  mapGet_eq_none_iff.mpr fun p hp => fun h => (hwf.2 p hp).2.1 h

/-! ### Substring containment -/

theorem containsSub_iff (n h : List Char) :
    containsSub n h = true ↔ List.IsInfix n h := by
  induction h with
  | nil =>
    simp [containsSub, List.isPrefixOf_iff_prefix, List.prefix_nil,
      List.infix_nil]
  | cons c t ih =>
    simp only [containsSub, Bool.or_eq_true, List.isPrefixOf_iff_prefix, ih]
    exact (List.infix_cons_iff).symm

/-! ### Example rows (the end-to-end example of the spec, and variants) -/

/-- The end-to-end example record set of the spec: a root, a child of the
root, and an orphan referencing the absent manager "99". -/
def c1rows : List Row :=
  [[("EMPLOYEENUMBER", "1"), ("FIRSTNAME", "Root")],
   [("EMPLOYEENUMBER", "2"), ("SUPERVISORPARTYID", "1"), ("FIRSTNAME", "Child")],
   [("EMPLOYEENUMBER", "3"), ("SUPERVISORPARTYID", "99"), ("FIRSTNAME", "Orphan")]]

/-! ### Claim theorems -/

/-- C1: a node whose managerId does not resolve to any key of the built
index is retained in the index with its managerId value untouched (not
nulled), occurs in no node's children array, does not abort the build
(handleUpload still succeeds on any non-empty input), is listed among the
root candidates, and is reported by the link-pass warning. -/
theorem c1_unresolved_manager_retained (rows : List Row) (e : Employee)
    (g : String) (he : e ∈ values (buildEmployeeMap rows))
    (hg : e.managerId = some g)
    (hmiss : mapGet (buildEmployeeMap rows) g = none) :
    e ∈ values (buildEmployeeMap rows) ∧ e.managerId = some g ∧
    (∀ k, e ∉ children (buildEmployeeMap rows) k) ∧
    (rows ≠ [] → handleUpload rows = Except.ok (buildEmployeeMap rows)) ∧
    e ∈ rootCandidates (buildEmployeeMap rows) ∧
    e ∈ unresolvedWarnings (buildEmployeeMap rows) := by
  have hwf := WF_build rows
  have hgne : g ≠ "" := managerId_ne_empty_of_mem hwf he hg
  refine ⟨he, hg, ?_, ?_, ?_, ?_⟩
  · intro k hk
    simp only [children, List.mem_filter, hg, Bool.and_eq_true,
      decide_eq_true_eq] at hk
    obtain ⟨-, ⟨-, hgk⟩, hsome⟩ := hk
    rw [← hgk, hmiss] at hsome
    cases hsome
  · intro hne
    rw [handleUpload, if_neg (by simpa [List.length_eq_zero] using hne)]
  · simp only [rootCandidates, List.mem_filter, hg]
    refine ⟨he, ?_⟩
    simp [hmiss]
  · simp only [unresolvedWarnings, List.mem_filter, hg]
    refine ⟨he, ?_⟩
    simp [hmiss, hgne]

/-- Witness for C1 at the end-to-end example rows of the spec: the orphan
node "3" is a root candidate. -/
theorem c1_unresolved_manager_retained_w :
    (⟨"3", some "99", "Orphan"⟩ : Employee) ∈
      rootCandidates (buildEmployeeMap c1rows) :=
  (c1_unresolved_manager_retained c1rows ⟨"3", some "99", "Orphan"⟩ "99"
    (by decide) rfl (by decide)).2.2.2.2.1

/-- C5: after the build, a node with a resolvable managerId occurs exactly
once in that manager's children list and in no other node's children list;
every member of a children list names the owning node as its manager; and
children lists preserve index iteration order (each is a sublist of the
index's value sequence, whose order among distinct ids is the input order
of the records that created the nodes). -/
theorem c5_children_exclusive (rows : List Row) (e : Employee) (g : String)
    (he : e ∈ values (buildEmployeeMap rows))
    (hg : e.managerId = some g)
    (hres : (mapGet (buildEmployeeMap rows) g).isSome = true) :
    (children (buildEmployeeMap rows) g).count e = 1 ∧
    (∀ k, k ≠ g → e ∉ children (buildEmployeeMap rows) k) ∧
    (∀ k c, c ∈ children (buildEmployeeMap rows) k → c.managerId = some k) ∧
    (∀ k, (children (buildEmployeeMap rows) k).Sublist
      (values (buildEmployeeMap rows))) := by
  have hwf := WF_build rows
  have hgne : g ≠ "" := managerId_ne_empty_of_mem hwf he hg
  refine ⟨?_, ?_, ?_, ?_⟩
  · rw [children, List.count_filter (by simp [hg, hgne, hres])]
    exact List.count_eq_one_of_mem (values_nodup hwf) he
  · intro k hk hmem
    simp only [children, List.mem_filter, hg, Bool.and_eq_true,
      decide_eq_true_eq] at hmem
    exact hk hmem.2.1.2.symm
  · intro k c hc
    simp only [children, List.mem_filter] at hc
    obtain ⟨-, hp⟩ := hc
    cases hmg : c.managerId with
    | none => rw [hmg] at hp; cases hp
    | some g2 =>
      rw [hmg] at hp
      simp only [Bool.and_eq_true, decide_eq_true_eq] at hp
      exact congrArg some hp.1.2
  · intro k
    rw [children]
    exact List.filter_sublist _

/-- Witness for C5 at the example rows: node "2" occurs exactly once in
the children of its manager "1". -/
theorem c5_children_exclusive_w :
    (children (buildEmployeeMap c1rows) "1").count ⟨"2", some "1", "Child"⟩
      = 1 :=
  (c5_children_exclusive c1rows ⟨"2", some "1", "Child"⟩ "1" (by decide) rfl
    (by decide)).1

/-- C9: a node whose managerId equals its own id is linked into its own
children array by the link pass (it becomes its own child), is not
reported as an unresolved manager reference, and is not a root
candidate. -/
theorem c9_self_manager (rows : List Row) (e : Employee)
    (he : e ∈ values (buildEmployeeMap rows))
    (hself : e.managerId = some e.id) :
    e ∈ children (buildEmployeeMap rows) e.id ∧
    e ∉ unresolvedWarnings (buildEmployeeMap rows) ∧
    e ∉ rootCandidates (buildEmployeeMap rows) := by
  have hwf := WF_build rows
  have hid : mapGet (buildEmployeeMap rows) e.id = some e :=
    mapGet_of_mem_values hwf he
  have hne : e.id ≠ "" := managerId_ne_empty_of_mem hwf he hself
  refine ⟨?_, ?_, ?_⟩
  · simp [children, List.mem_filter, hself, hne, hid, he]
  · intro hmem
    simp [unresolvedWarnings, List.mem_filter, hself, hne, hid] at hmem
  · intro hmem
    simp [rootCandidates, List.mem_filter, hself, hne, hid] at hmem

/-- A single record that names itself as its manager. -/
def c9rows : List Row := [[("EMPLOYEENUMBER", "1"), ("SUPERVISORPARTYID", "1")]]

/-- Witness for C9: the self-managing node "1" ends up inside its own
children array. -/
theorem c9_self_manager_w :
    (⟨"1", some "1", "Unknown"⟩ : Employee) ∈
      children (buildEmployeeMap c9rows) "1" :=
  (c9_self_manager c9rows ⟨"1", some "1", "Unknown"⟩ (by decide) rfl).1

/-! ### Claims about duplicates and empty input -/

theorem buildEmployeeMap_append (rows : List Row) (r : Row) :
    buildEmployeeMap (rows ++ [r]) = buildRow (buildEmployeeMap rows) r := by
  rw [buildEmployeeMap, List.foldl_append, List.foldl_cons, List.foldl_nil]
  rfl

theorem foldl_buildRow_id (rows : List Row) (m : EmployeeMap)
    (h : ∀ row ∈ rows, jsLookup row idKeys = none) :
    rows.foldl buildRow m = m := by
  induction rows generalizing m with
  | nil => rfl
  | cons r rs ih =>
    rw [List.foldl_cons]
    have hr : buildRow m r = m := by
      simp only [buildRow, h r (List.mem_cons_self r rs)]
    rw [hr]
    exact ih m fun row hrow => h row (List.mem_cons_of_mem _ hrow)

theorem buildEmployeeMap_eq_nil (rows : List Row)
    (h : ∀ row ∈ rows, jsLookup row idKeys = none) :
    buildEmployeeMap rows = [] :=
  foldl_buildRow_id rows [] h

/-- C2 counterexample rows: ids "1", "2", then "1" again with a new
name. -/
def c2rows : List Row :=
  [[("EMPLOYEENUMBER", "1"), ("FIRSTNAME", "A")],
   [("EMPLOYEENUMBER", "2"), ("FIRSTNAME", "B")],
   [("EMPLOYEENUMBER", "1"), ("FIRSTNAME", "C")]]

/-- C2 counterexample: on records with ids "1", "2", "1", the surviving
node "1" does take the last record's fields (name "C"), but it keeps the
iteration position of the FIRST occurrence of its id: the built index is
[("1", C-node), ("2", B-node)], so the key order is ["1", "2"] and not the
["2", "1"] that "position of the last occurrence" asserts (JS Map.set
preserves the original insertion position of an existing key). -/
theorem c2_duplicate_position_cex :
    buildEmployeeMap c2rows =
      [("1", ⟨"1", none, "C"⟩), ("2", ⟨"2", none, "B"⟩)] ∧
    keys (buildEmployeeMap c2rows) ≠ ["2", "1"] := by decide

/-- C2 amended: a later record whose id is already present overwrites that
node's fields entirely (managerId and name both come from the last
record) and leaves every other entry unchanged, but the node's position
for index iteration — hence sibling ordering — is that of the FIRST
occurrence of the id: appending a record whose id is present leaves the
key sequence unchanged, and appending one with a fresh id appends the
key. -/
theorem c2_last_write_wins (rows : List Row) (r : Row) (i : String)
    (hi : jsLookup r idKeys = some i) :
    mapGet (buildEmployeeMap (rows ++ [r])) i =
      some ⟨i, jsLookup r managerKeys, (jsLookup r nameKeys).getD "Unknown"⟩ ∧
    (∀ k, k ≠ i → mapGet (buildEmployeeMap (rows ++ [r])) k =
      mapGet (buildEmployeeMap rows) k) ∧
    keys (buildEmployeeMap (rows ++ [r])) =
      (if mapHasKey (buildEmployeeMap rows) i
       then keys (buildEmployeeMap rows)
       else keys (buildEmployeeMap rows) ++ [i]) := by
  simp only [buildEmployeeMap_append, buildRow, hi]
  exact ⟨mapGet_mapSet_self _ _ _,
    fun k hk => mapGet_mapSet_ne _ _ _ _ hk,
    keys_mapSet _ _ _⟩

/-- Witness for C2 (amended): appending a second "1" record with name "C"
to rows that already contain id "1" makes the "1" entry carry name "C". -/
theorem c2_last_write_wins_w :
    mapGet (buildEmployeeMap (
      [[("EMPLOYEENUMBER", "1"), ("FIRSTNAME", "A")],
       [("EMPLOYEENUMBER", "2"), ("FIRSTNAME", "B")]] ++
      [[("EMPLOYEENUMBER", "1"), ("FIRSTNAME", "C")]])) "1" =
      some ⟨"1", none, "C"⟩ :=
  (c2_last_write_wins
    [[("EMPLOYEENUMBER", "1"), ("FIRSTNAME", "A")],
     [("EMPLOYEENUMBER", "2"), ("FIRSTNAME", "B")]]
    [("EMPLOYEENUMBER", "1"), ("FIRSTNAME", "C")] "1" (by decide)).1

/-- A non-empty upload whose single row has no identifier field. -/
def c3rows : List Row := [[("FOO", "bar")]]

/-- C3 counterexample: a non-empty upload in which no row carries any
identifier field does NOT fail with the empty-input error — handleUpload
succeeds and installs the empty index (the app then renders "No data
available" with no upload error). -/
theorem c3_emptyinput_cex :
    handleUpload c3rows = Except.ok [] ∧
    handleUpload c3rows ≠ Except.error UploadError.emptyInput :=
  ⟨rfl, fun h => by simp [handleUpload, c3rows] at h⟩

/-- C3 amended: the build fails with the EmptyInput error — producing no
index — exactly when the parsed row list is empty; a non-empty input in
which no row yields a usable identifier instead succeeds with an empty
index. -/
theorem c3_emptyinput_amended (rows : List Row) :
    (handleUpload rows = Except.error UploadError.emptyInput ↔ rows = []) ∧
    (rows ≠ [] → (∀ row ∈ rows, jsLookup row idKeys = none) →
      handleUpload rows = Except.ok []) := by
  constructor
  · constructor
    · intro h
      by_cases hr : rows.length = 0
      · exact List.length_eq_zero.mp hr
      · rw [handleUpload, if_neg hr] at h
        cases h
    · rintro rfl
      rfl
  · intro hne hids
    rw [handleUpload, if_neg (by simpa [List.length_eq_zero] using hne),
      buildEmployeeMap_eq_nil rows hids]

/-- Witness for C3 (amended): the id-less non-empty upload succeeds with
an empty index. -/
theorem c3_emptyinput_amended_w : handleUpload c3rows = Except.ok [] :=
  (c3_emptyinput_amended c3rows).2 (by decide) (by decide)

/-- C10: empty-string field values behave as absent fields in the node
pass: a row whose identifier fields are all empty or absent is dropped
(no node is created); when the manager fields are all empty or absent the
created node's managerId is null — and a null-managerId node is a true
root, being a root candidate that the link pass never warns about; when
the name fields are all empty or absent the created node's name is
"Unknown". -/
theorem c10_empty_fields (m : EmployeeMap) (r : Row) :
    ((∀ k ∈ idKeys, getField r k = none ∨ getField r k = some "") →
      buildRow m r = m) ∧
    (∀ i, jsLookup r idKeys = some i →
      ((∀ k ∈ managerKeys, getField r k = none ∨ getField r k = some "") →
        buildRow m r =
          mapSet m i ⟨i, none, (jsLookup r nameKeys).getD "Unknown"⟩) ∧
      ((∀ k ∈ nameKeys, getField r k = none ∨ getField r k = some "") →
        buildRow m r = mapSet m i ⟨i, jsLookup r managerKeys, "Unknown"⟩)) ∧
    (∀ e ∈ values m, e.managerId = none →
      e ∈ rootCandidates m ∧ e ∉ unresolvedWarnings m) := by
  refine ⟨?_, ?_, ?_⟩
  · intro h
    simp only [buildRow, jsLookup_none h]
  · intro i hi
    constructor
    · intro h
      simp only [buildRow, hi, jsLookup_none h]
    · intro h
      simp only [buildRow, hi, jsLookup_none h, Option.getD_none]
  · intro e he hmg
    constructor
    · simp [rootCandidates, List.mem_filter, he, hmg]
    · intro hmem
      simp [unresolvedWarnings, List.mem_filter, hmg] at hmem

/-- A row with id "7" whose manager and name fields are present but
empty. -/
def c10row : Row :=
  [("EMPLOYEENUMBER", "7"), ("SUPERVISORPARTYID", ""), ("FIRSTNAME", "")]

/-- Witness for C10: the empty-string manager and name fields produce the
node ⟨"7", null, "Unknown"⟩. -/
theorem c10_empty_fields_w :
    buildRow [] c10row = [("7", ⟨"7", none, "Unknown"⟩)] :=
  ((c10_empty_fields [] c10row).2.1 "7" (by decide)).1 (by decide)

/-! ### Navigation -/

/-- C6: goUp replaces the current root by exactly the node stored in the
(built) index under the root's managerId — the index entry itself — and
reports success, precisely when that managerId is non-null and resolves;
when it is null or does not resolve, goUp is a no-op on the state and
returns the no-op status.  The Bool of `goUp` records whether setViewRoot
fired. -/
theorem c6_goUp (rows : List Row) (s : AppState) (r : Employee)
    (hm : s.employeeMap = some (buildEmployeeMap rows))
    (hr : s.viewRoot = some r) :
    (∀ g mgr, r.managerId = some g →
      mapGet (buildEmployeeMap rows) g = some mgr →
      goUp s = ({ s with viewRoot := some mgr }, true)) ∧
    (r.managerId = none → goUp s = (s, false)) ∧
    (∀ g, r.managerId = some g → mapGet (buildEmployeeMap rows) g = none →
      goUp s = (s, false)) := by
  have hwf := WF_build rows
  refine ⟨?_, ?_, ?_⟩
  · intro g mgr hg hget
    have hgne : g ≠ "" := by
      intro hgeq
      rw [hgeq, mapGet_empty_key hwf] at hget
      cases hget
    simp only [goUp, hr, hg, if_neg hgne, hm, hget]
  · intro hg
    simp only [goUp, hr, hg]
  · intro g hg hget
    by_cases hgeq : g = ""
    · simp only [goUp, hr, hg, if_pos hgeq]
    · simp only [goUp, hr, hg, if_neg hgeq, hm, hget]

/-- The app state after uploading the example rows and re-rooting at the
child node "2". -/
def c6state : AppState :=
  { employeeMap := some (buildEmployeeMap c1rows)
    viewRoot := some ⟨"2", some "1", "Child"⟩ }

/-- Witness for C6: from the child node, goUp moves the root to the index
entry of its manager "1" and reports success. -/
theorem c6_goUp_w :
    goUp c6state =
      ({ c6state with viewRoot := some ⟨"1", none, "Root"⟩ }, true) :=
  (c6_goUp c1rows c6state ⟨"2", some "1", "Child"⟩ rfl rfl).1 "1"
    ⟨"1", none, "Root"⟩ rfl (by decide)

/-! ### Search -/

/-- The map used for the C4 counterexample: one node named "ab". -/
def c4map : EmployeeMap := [("1", ⟨"1", none, "ab"⟩)]

/-- C4 counterexample: with the query " b" (a space, then b), the
implementation trims the query before matching and returns the node named
"ab", although "ab" does not contain " b" as a case-insensitive substring;
searchSpecC4 — the claim's reading, matching the untrimmed query — returns
nothing there. -/
theorem c4_search_cex :
    searchEmployees c4map " b" SearchField.name = [⟨"1", none, "ab"⟩] ∧
    searchSpecC4 c4map " b" SearchField.name = [] ∧
    containsSub (lowerChars (" b".data)) (lowerChars ("ab".data)) = false := by
  decide

/-- The declarative matching relation the implementation realises: the
(already trimmed) lower-cased query occurs as a contiguous substring of
the chosen field's lower-cased value, where the managerId field skips
nodes with a null (or empty — impossible in built maps) managerId. -/
def MatchesField (e : Employee) (f : SearchField) (q : List Char) : Prop :=
  match f with
  | .id => List.IsInfix q (lowerChars e.id.data)
  | .name => List.IsInfix q (lowerChars e.name.data)
  | .managerId => ∃ g, e.managerId = some g ∧ g ≠ "" ∧
      List.IsInfix q (lowerChars g.data)

/-- C4 amended: search returns the empty sequence exactly on queries whose
trimmed form is empty (so on every empty or whitespace-only query);
otherwise it returns, in index insertion order (the result is a sublist of
the index's value sequence), exactly the nodes whose chosen field's value
contains the TRIMMED query as a case-insensitive substring, skipping
null-managerId nodes when the field is managerId. -/
theorem c4_search_semantics (m : EmployeeMap) (q : String) (f : SearchField) :
    (searchEmployees m q f).Sublist (values m) ∧
    (trimChars (lowerChars q.data) = [] → searchEmployees m q f = []) ∧
    (∀ e, e ∈ searchEmployees m q f ↔
      trimChars (lowerChars q.data) ≠ [] ∧ e ∈ values m ∧
      MatchesField e f (trimChars (lowerChars q.data))) := by
  refine ⟨?_, ?_, ?_⟩
  · simp only [searchEmployees]
    by_cases hq : trimChars (lowerChars q.data) = []
    · rw [if_pos hq]
      exact List.nil_sublist _
    · rw [if_neg hq]
      exact List.filter_sublist _
  · intro hq
    simp only [searchEmployees]
    rw [if_pos hq]
  · intro e
    by_cases hq : trimChars (lowerChars q.data) = []
    · simp only [searchEmployees]
      rw [if_pos hq]
      simp [hq]
    · simp only [searchEmployees]
      rw [if_neg hq]
      simp only [List.mem_filter, ne_eq, hq, not_false_iff, true_and]
      refine and_congr_right fun _ => ?_
      cases f with
      | id => simp [MatchesField, containsSub_iff]
      | name => simp [MatchesField, containsSub_iff]
      | managerId =>
        cases hmg : e.managerId with
        | none => simp [MatchesField, hmg]
        | some g => simp [MatchesField, hmg, containsSub_iff]

/-- Witness for C4 (amended): a whitespace-only query returns the empty
sequence on the counterexample map. -/
theorem c4_search_semantics_w :
    searchEmployees c4map "  " SearchField.name = [] :=
  (c4_search_semantics c4map "  " SearchField.name).2.1 (by decide)

/-! ### Geometry -/

theorem foldl_min_add (c : ℚ) (f : ℚ × ℚ → ℚ) (ps : List (ℚ × ℚ)) :
    ∀ a : ℚ, ps.foldl (fun a q => min a (f q + c)) (a + c)
      = ps.foldl (fun a q => min a (f q)) a + c := by
  induction ps with
  | nil => intro a; rfl
  | cons q t ih =>
    intro a
    rw [List.foldl_cons, List.foldl_cons, min_add_add_right]
    exact ih _

theorem foldl_max_add (c : ℚ) (f : ℚ × ℚ → ℚ) (ps : List (ℚ × ℚ)) :
    ∀ a : ℚ, ps.foldl (fun a q => max a (f q + c)) (a + c)
      = ps.foldl (fun a q => max a (f q)) a + c := by
  induction ps with
  | nil => intro a; rfl
  | cons q t ih =>
    intro a
    rw [List.foldl_cons, List.foldl_cons, max_add_add_right]
    exact ih _

theorem rawMinX_shift (dx dy : ℚ) (p : ℚ × ℚ) (ps : List (ℚ × ℚ)) :
    rawMinX (shiftPos dx dy p) (ps.map (shiftPos dx dy))
      = rawMinX p ps + dx := by
  rw [rawMinX, rawMinX, List.foldl_map]
  simp only [shiftPos_fst]
  exact foldl_min_add dx Prod.fst ps p.1

theorem rawMaxX_shift (dx dy : ℚ) (p : ℚ × ℚ) (ps : List (ℚ × ℚ)) :
    rawMaxX (shiftPos dx dy p) (ps.map (shiftPos dx dy))
      = rawMaxX p ps + dx := by
  rw [rawMaxX, rawMaxX, List.foldl_map]
  simp only [shiftPos_fst]
  exact foldl_max_add dx Prod.fst ps p.1

theorem rawMinY_shift (dx dy : ℚ) (p : ℚ × ℚ) (ps : List (ℚ × ℚ)) :
    rawMinY (shiftPos dx dy p) (ps.map (shiftPos dx dy))
      = rawMinY p ps + dy := by
  rw [rawMinY, rawMinY, List.foldl_map]
  simp only [shiftPos_snd]
  exact foldl_min_add dy Prod.snd ps p.2

theorem rawMaxY_shift (dx dy : ℚ) (p : ℚ × ℚ) (ps : List (ℚ × ℚ)) :
    rawMaxY (shiftPos dx dy p) (ps.map (shiftPos dx dy))
      = rawMaxY p ps + dy := by
  rw [rawMaxY, rawMaxY, List.foldl_map]
  simp only [shiftPos_snd]
  exact foldl_max_add dy Prod.snd ps p.2

theorem bboxWidth_shift (dx dy : ℚ) (p : ℚ × ℚ) (ps : List (ℚ × ℚ)) :
    bboxWidth (shiftPos dx dy p) (ps.map (shiftPos dx dy))
      = bboxWidth p ps := by
  simp only [bboxWidth, bboxMaxX, bboxMinX, rawMaxX_shift, rawMinX_shift]
  ring

theorem bboxHeight_shift (dx dy : ℚ) (p : ℚ × ℚ) (ps : List (ℚ × ℚ)) :
    bboxHeight (shiftPos dx dy p) (ps.map (shiftPos dx dy))
      = bboxHeight p ps := by
  simp only [bboxHeight, bboxMaxY, bboxMinY, rawMaxY_shift, rawMinY_shift]
  ring

theorem fitScale_shift (dx dy : ℚ) (p : ℚ × ℚ) (ps : List (ℚ × ℚ))
    (w h : ℚ) :
    fitScale (shiftPos dx dy p) (ps.map (shiftPos dx dy)) w h
      = fitScale p ps w h := by
  simp only [fitScale, bboxWidth_shift, bboxHeight_shift]

/-- C7: for a single visible node anchored anywhere and any viewport
size, the zero-extent bounding box is expanded by the card dimensions
(width 260, height 100), so both divisors of the scale computation are
non-zero — no division by zero occurs — and the resulting (rational,
hence finite) scale is clamped into the fixed range [0.2, 1]. -/
theorem c7_single_node_fit (x y w h : ℚ) :
    bboxWidth (x, y) [] = 260 ∧ bboxHeight (x, y) [] = 100 ∧
    bboxWidth (x, y) [] ≠ 0 ∧ bboxHeight (x, y) [] ≠ 0 ∧
    fitToScreen [(x, y)] w h =
      some ⟨fitTx (x, y) [] w h, fitTy (x, y) [] w h, fitScale (x, y) [] w h⟩ ∧
    (1 / 5 : ℚ) ≤ fitScale (x, y) [] w h ∧ fitScale (x, y) [] w h ≤ 1 := by
  have hw : bboxWidth (x, y) [] = 260 := by
    simp only [bboxWidth, bboxMaxX, bboxMinX, rawMaxX, rawMinX,
      List.foldl_nil, CARD_WIDTH]
    ring
  have hh : bboxHeight (x, y) [] = 100 := by
    simp only [bboxHeight, bboxMaxY, bboxMinY, rawMaxY, rawMinY,
      List.foldl_nil, CARD_HEIGHT]
    ring
  refine ⟨hw, hh, by rw [hw]; norm_num, by rw [hh]; norm_num, rfl, ?_, ?_⟩
  · simp only [fitScale]
    exact le_min (le_max_right _ _) (by norm_num)
  · simp only [fitScale]
    exact min_le_right _ _

/-- C8 counterexample: with the same 1000×1000 viewport, the vertical
offset of the returned translation away from exact center-mapping
(ty - (h/2 - centerY·scale)) is 0 for a single node at the origin but -70
for two stacked nodes — the offset varies with the bounding box's height,
so it is not a fixed bias. -/
theorem c8_translation_cex :
    fitToScreen [(0, 0)] 1000 1000 = some ⟨500, 450, 1⟩ ∧
    fitToScreen [(0, 0), (0, 140)] 1000 1000 = some ⟨500, 310, 1⟩ ∧
    (450 : ℚ) - (1000 / 2 - bboxCenterY (0, 0) [] * 1) ≠
      (310 : ℚ) - (1000 / 2 - bboxCenterY (0, 0) [(0, 140)] * 1) := by
  refine ⟨?_, ?_, ?_⟩
  · simp only [fitToScreen, FitTransform.mk.injEq, Option.some.injEq]
    norm_num [fitTx, fitTy, fitScale, bboxCenterX, bboxCenterY, bboxWidth,
      bboxHeight, bboxMinX, bboxMaxX, bboxMinY, bboxMaxY, rawMinX, rawMaxX,
      rawMinY, rawMaxY, CARD_WIDTH, CARD_HEIGHT, PADDING, min_def, max_def]
  · simp only [fitToScreen, FitTransform.mk.injEq, Option.some.injEq]
    norm_num [fitTx, fitTy, fitScale, bboxCenterX, bboxCenterY, bboxWidth,
      bboxHeight, bboxMinX, bboxMaxX, bboxMinY, bboxMaxY, rawMinX, rawMaxX,
      rawMinY, rawMaxY, CARD_WIDTH, CARD_HEIGHT, PADDING, min_def, max_def]
  · norm_num [bboxCenterY, bboxMinY, bboxMaxY, rawMinY, rawMaxY,
      CARD_HEIGHT]

/-- C8 amended: the translation maps the bounding-box x-center exactly to
the viewport x-center; the y-center maps to the viewport y-center offset
by a vertical bias equal to 50 minus half the SCALED box height — a bias
that depends on the box's height and the scale, though not on the box's
position: shifting every anchor by a constant changes neither the scale
nor the box height, hence not the bias. -/
theorem c8_translation (p : ℚ × ℚ) (ps : List (ℚ × ℚ)) (w h dx dy : ℚ) :
    fitToScreen (p :: ps) w h =
      some ⟨fitTx p ps w h, fitTy p ps w h, fitScale p ps w h⟩ ∧
    bboxCenterX p ps * fitScale p ps w h + fitTx p ps w h = w / 2 ∧
    bboxCenterY p ps * fitScale p ps w h + fitTy p ps w h =
      h / 2 + (50 - bboxHeight p ps * fitScale p ps w h / 2) ∧
    fitScale (shiftPos dx dy p) (ps.map (shiftPos dx dy)) w h
      = fitScale p ps w h ∧
    bboxHeight (shiftPos dx dy p) (ps.map (shiftPos dx dy))
      = bboxHeight p ps :=
  ⟨rfl, by rw [fitTx]; ring, by rw [fitTy]; ring,
    fitScale_shift dx dy p ps w h, bboxHeight_shift dx dy p ps⟩

end HierarchyViz
